import Mathlib

/-!
Verification development for the StyleUnion scraping pipeline
(styleunion spiders, middlewares and pipelines). Python strings are
modelled as lists of characters; Python sets as insertion-ordered
duplicate-free lists; the stable built-in sort as insertion sort.
-/

/-- Python strings are modelled as lists of characters. -/
abbrev PyStr := List Char

/-- One character of the `\d` regex class (ASCII digits as used by the spiders). -/
def digitC (c : Char) : Bool := c ∈ ['0','1','2','3','4','5','6','7','8','9']

/-- Python `str.lower` (ASCII model). -/
def lowerL (l : PyStr) : PyStr := l.map Char.toLower

/-- Python `str.upper` (ASCII model). -/
def upperL (l : PyStr) : PyStr := l.map Char.toUpper

/-- Python `str.strip`: drop whitespace from both ends. -/
def pyStrip (l : PyStr) : PyStr :=
  ((l.dropWhile Char.isWhitespace).reverse.dropWhile Char.isWhitespace).reverse

/-- Numeric value of a digit string, as `int` building inside `float`. -/
def digitsToNat (l : PyStr) : ℕ := l.foldl (fun n c => 10 * n + (c.toNat - 48)) 0

/-- Python `str.replace` with a fuel argument for structural recursion. -/
def pyReplaceAux (pat rep : PyStr) : ℕ → PyStr → PyStr
  | 0, l => l
  | _, [] => []
  | fuel + 1, c :: t =>
    if List.isPrefixOf pat (c :: t) then rep ++ pyReplaceAux pat rep fuel ((c :: t).drop pat.length)
    else c :: pyReplaceAux pat rep fuel t

/-- Python `str.replace pat rep`: replace every occurrence, leftmost first. -/
def pyReplace (l pat rep : PyStr) : PyStr := pyReplaceAux pat rep l.length l

/- ### Variant classifier of `StyleUnionSpiderJSON.parse_product_json` -/

/-- A JSON scalar as found in a variant price field (Shopify also sends strings). -/
inductive PVal where
  | num (q : ℚ)
  | str (s : PyStr)
deriving DecidableEq

/-- One entry of the `variants` array of the Shopify JSON payload. -/
structure Variant where
  option1 : Option PyStr := none
  option2 : Option PyStr := none
  option3 : Option PyStr := none
  price : Option PVal := none
  sku : Option PyStr := none
deriving DecidableEq

/-- The canonical size vocabulary of the regex `XXS|XS|S|M|L|XL|XXL|XXXL`. -/
def sizeVocab : List PyStr :=
  ["XXS".data, "XS".data, "S".data, "M".data, "L".data, "XL".data, "XXL".data, "XXXL".data]

/-- Nonempty all-digit token, the `\d+` alternative of the size regex. -/
def isNumTok (l : PyStr) : Bool := !l.isEmpty && l.all digitC

/-- The size regex test, applied to an upper-cased stripped option value. -/
def sizePat (u : PyStr) : Bool := sizeVocab.contains u || isNumTok u

/-- Insertion into a Python set, modelled as insertion-ordered duplicate-free list. -/
def addOnce (l : List PyStr) (x : PyStr) : List PyStr := if l.contains x then l else l ++ [x]

/-- Processing of `option1` and `option2` in `parse_product_json`: a truthy value is
stripped and classified as a size when the upper-cased form matches the size
regex, otherwise as a color. -/
def slotClassify (acc : List PyStr × List PyStr) (o : Option PyStr) : List PyStr × List PyStr :=
  match o with
  | none => acc
  | some s =>
    if s.isEmpty then acc
    else
      let t := pyStrip s
      if sizePat (upperL t) then (addOnce acc.1 t, acc.2) else (acc.1, addOnce acc.2 t)

/-- Processing of `option3` in `parse_product_json`: a truthy value is always
added to the colors, with no size check. -/
def slotColor (acc : List PyStr × List PyStr) (o : Option PyStr) : List PyStr × List PyStr :=
  match o with
  | none => acc
  | some s => if s.isEmpty then acc else (acc.1, addOnce acc.2 (pyStrip s))

/-- Per-variant step of the sizes and colors accumulation loop. -/
def classifyVariant (acc : List PyStr × List PyStr) (v : Variant) : List PyStr × List PyStr :=
  slotColor (slotClassify (slotClassify acc v.option1) v.option2) v.option3

/-- The sizes and colors accumulated over all variants, in first-seen order. -/
def classifyVariants (vs : List Variant) : List PyStr × List PyStr :=
  vs.foldl classifyVariant ([], [])

/-- The `size_order` ranking dictionary; unknown labels get the default 999. -/
def sizeRank (s : PyStr) : ℕ :=
  let u := upperL s
  if u = "XXS".data then 1 else if u = "XS".data then 2 else if u = "S".data then 3
  else if u = "M".data then 4 else if u = "L".data then 5 else if u = "XL".data then 6
  else if u = "XXL".data then 7 else if u = "XXXL".data then 8 else 999

/-- The `sorted` call on the size set with key `size_order.get(x.upper(), 999)`;
the Python sort is stable, modelled by insertion sort. -/
def sortSizes (l : List PyStr) : List PyStr :=
  List.insertionSort (fun a b => sizeRank a ≤ sizeRank b) l

/-- Lexicographic string comparison, the `sorted` order on color strings. -/
def lexLe : PyStr → PyStr → Bool
  | [], _ => true
  | _ :: _, [] => false
  | a :: as, b :: bs => if a < b then true else if a = b then lexLe as bs else false

/-- The `sorted(list(colors))` call of `parse_product_json`. -/
def sortColors (l : List PyStr) : List PyStr :=
  List.insertionSort (fun a b => lexLe a b = true) l

/- ### JSON product extraction -/

/-- The Shopify JSON product payload, restricted to the fields the spider reads. -/
structure Payload where
  title : Option PyStr := none
  body_html : Option PyStr := none
  variants : List Variant := []
  images : List (Option PyStr) := []
deriving DecidableEq

/-- A fetched product document: either malformed JSON, or parsed JSON whose
`product` entry is absent or empty (`none`), or a product payload. -/
inductive PDoc where
  | malformed
  | parsed (product : Option Payload)
deriving DecidableEq

/-- Fractional value of the digits after the decimal point. -/
def fracVal (l : PyStr) : ℚ := (digitsToNat l : ℚ) / 10 ^ l.length

/-- Python `float` on a string, for plain decimal forms: optional sign,
digits, optional fractional part; anything else raises, modelled as `none`. -/
def parseFloatL (l : PyStr) : Option ℚ :=
  let t := pyStrip l
  let sgn : ℚ × PyStr :=
    match t with
    | '-' :: r => (-1, r)
    | '+' :: r => (1, r)
    | _ => (1, t)
  let ip := sgn.2.takeWhile digitC
  let rest := sgn.2.drop ip.length
  match rest with
  | [] => if ip.isEmpty then none else some (sgn.1 * digitsToNat ip)
  | '.' :: fr =>
    if fr.all digitC && !(ip.isEmpty && fr.isEmpty) then
      some (sgn.1 * (digitsToNat ip + fracVal fr))
    else none
  | _ => none

/-- Python `float` applied to a JSON scalar. -/
def pyFloat : PVal → Option ℚ
  | .num q => some q
  | .str s => parseFloatL s

/-- Per-image step of the image loop of `parse_product_json`: a truthy `src`
gets an `https:` scheme when protocol-relative and a width parameter, and is
appended unconditionally. -/
def jsonImgStep (acc : List PyStr) (src? : Option PyStr) : List PyStr :=
  match src? with
  | none => acc
  | some src =>
    if src.isEmpty then acc
    else
      let u := if List.isPrefixOf "//".data src then "https:".data ++ src else src
      let u := if u.contains '?' then u ++ "&width=1200".data else u ++ "?width=1200".data
      acc ++ [u]

/-- The image list built by `parse_product_json`: no dedup, no cap, no filter. -/
def jsonImages (imgs : List (Option PyStr)) : List PyStr := imgs.foldl jsonImgStep []

/-- The product record assembled by the spiders (fields the spiders fill). -/
structure Item where
  product_url : PyStr
  product_name : Option PyStr
  currency : PyStr
  price : Option ℚ
  sku : Option PyStr
  size_list : List PyStr
  color_list : List PyStr
  size : Option PyStr
  color : Option PyStr
  image_urls : List PyStr
deriving DecidableEq

/-- The item construction of `parse_product_json` after the budget and product
checks: `none` models the generic exception handler swallowing a failure, which
only the `float` conversion of the first variant price can trigger. -/
def buildItem (url : PyStr) (p : Payload) : Option Item :=
  let priceSku : Option (Option ℚ × Option PyStr) :=
    match p.variants with
    | [] => some (none, none)
    | v :: _ =>
      match pyFloat (v.price.getD (PVal.num 0)) with
      | none => none
      | some q => some (some q, v.sku)
  match priceSku with
  | none => none
  | some pk =>
    let sc := classifyVariants p.variants
    let ss := sortSizes sc.1
    let cc := sortColors sc.2
    some {
      product_url := pyReplace url ".json".data []
      product_name := p.title
      currency := "₹".data
      price := pk.1
      sku := pk.2
      size_list := ss
      color_list := cc
      size := ss.head?
      color := cc.head?
      image_urls := jsonImages p.images }

/-- The whole of `parse_product_json`: budget guard, JSON decode, product
presence check, then item construction. `none` means no item is yielded. -/
def parseProductJson (count maxP : ℕ) (doc : PDoc) (url : PyStr) : Option Item :=
  if count ≥ maxP then none
  else
    match doc with
    | .malformed => none
    | .parsed none => none
    | .parsed (some p) => buildItem url p

/- ### Crawl run accounting of the JSON spider -/

/-- One response processed by the JSON spider: a listing page or a product
document. -/
inductive CrawlEv where
  | listing
  | productDoc (doc : PDoc) (url : PyStr)

/-- State transition on (product_count, items emitted) for one response.
`product_count` is incremented before the fallible item construction, exactly
as in the source, and every emission is guarded by the budget checks. -/
def crawlStep (maxP : ℕ) (s : ℕ × ℕ) (e : CrawlEv) : ℕ × ℕ :=
  match e with
  | .listing => s
  | .productDoc doc _ =>
    if s.1 ≥ maxP then s
    else
      match doc with
      | .malformed => s
      | .parsed none => s
      | .parsed (some p) =>
        match buildItem [] p with
        | none => (s.1 + 1, s.2)
        | some _ => (s.1 + 1, s.2 + 1)

/-- A full crawl run from a fresh spider state. -/
def runCrawl (maxP : ℕ) (evs : List CrawlEv) : ℕ × ℕ := evs.foldl (crawlStep maxP) (0, 0)

theorem crawl_invariant (maxP : ℕ) (evs : List CrawlEv) :
    ∀ s : ℕ × ℕ, s.2 ≤ s.1 → s.1 ≤ maxP →
      (evs.foldl (crawlStep maxP) s).2 ≤ (evs.foldl (crawlStep maxP) s).1 ∧
      (evs.foldl (crawlStep maxP) s).1 ≤ maxP := by
  induction evs with
  | nil => exact fun s h1 h2 => ⟨h1, h2⟩
  | cons e t ih =>
    intro s h1 h2
    apply ih
    · cases e with
      | listing => exact h1
      | productDoc doc url =>
        simp only [crawlStep]
        split
        · exact h1
        · cases doc with
          | malformed => exact h1
          | parsed p =>
            cases p with
            | none => exact h1
            | some pay =>
              simp only []
              cases buildItem [] pay <;> simp <;> omega
    · cases e with
      | listing => exact h2
      | productDoc doc url =>
        simp only [crawlStep]
        split
        · exact h2
        · rename_i hlt
          cases doc with
          | malformed => exact h2
          | parsed p =>
            cases p with
            | none => exact h2
            | some pay =>
              simp only []
              cases buildItem [] pay <;> simp <;> omega

/-- C1: across a full crawl run of the JSON spider with its budget of 1000,
the number of emitted product items never exceeds 1000: the count is
incremented once per accepted product response and every emission site is
guarded by the budget check. -/
theorem budget_respected (evs : List CrawlEv) : (runCrawl 1000 evs).2 ≤ 1000 := by
  have h := crawl_invariant 1000 evs (0, 0) (Nat.le_refl 0) (by omega)
  exact le_trans h.1 h.2

/- ### Pagination gates -/

/-- The pagination decision of `StyleUnionSpiderJSON.parse`: a next-listing
request is yielded iff the budget is not reached, the page yielded at least
one product link, and the current page number is below 100. -/
def jsonNextGate (count maxP : ℕ) (hasLinks : Bool) (page : ℕ) : Bool :=
  decide (count < maxP) && hasLinks && decide (page < 100)

/-- The pagination decision of `StyleUnionSpider.parse` (HTML spider): a
next-listing request is yielded iff the page yielded at least one unique
product link; no budget and no page ceiling is consulted. -/
def htmlNextGate (hasLinks : Bool) (_page : ℕ) : Bool := hasLinks

/-- C2 counterexample: the HTML spider emits a next-listing request on page
150, beyond the hard page ceiling of 100, as soon as the page has links, so
the three-condition guard does not hold for every listing page processed. -/
theorem pagination_gate_cex :
    htmlNextGate true 150 = true ∧ ¬ (150 < 100) := by
  exact ⟨rfl, by omega⟩

/-- C2 amended: the JSON spider emits a next-listing request iff all three
conditions hold (links found, budget not reached, page below 100); the HTML
spider emits one iff the page yielded at least one unique product link,
with no budget condition and no page ceiling. -/
theorem pagination_gate_spec (count maxP : ℕ) (hasLinks : Bool) (page : ℕ) :
    (jsonNextGate count maxP hasLinks page = true ↔
      count < maxP ∧ hasLinks = true ∧ page < 100) ∧
    (htmlNextGate hasLinks page = true ↔ hasLinks = true) := by
  constructor
  · simp [jsonNextGate, and_assoc]
  · simp [htmlNextGate]

/- ### Retry backoff of CustomRetryMiddleware -/

/-- The exponential backoff of `CustomRetryMiddleware.process_response` for a
429 response: `min(10 * 2 ** retry_times, 300)` seconds. -/
def backoffTime (retryTimes : ℕ) : ℕ := min (10 * 2 ^ retryTimes) 300

/-- The total wait before a retry: backoff plus the uniform jitter drawn from
`random.uniform(0, 5)`. -/
def waitTime (retryTimes : ℕ) (jitter : ℚ) : ℚ := (backoffTime retryTimes : ℚ) + jitter

theorem backoff_gap (n : ℕ) (h : backoffTime n < 300) :
    backoffTime n + 5 ≤ backoffTime (n + 1) := by
  have h2 : 10 * 2 ^ n < 300 := by
    by_contra hc
    simp only [backoffTime] at h
    omega
  have hn : n < 5 := by
    by_contra hc
    push_neg at hc
    have : 2 ^ 5 ≤ 2 ^ n := Nat.pow_le_pow_right (by omega) hc
    omega
  interval_cases n <;> simp [backoffTime] <;> omega

/-- C3: for consecutive 429 retries of the same request, the wait computed for
attempt n+1 is at least the wait computed for attempt n whenever the base
backoff has not reached the 300 second cap, for any jitters in the interval
from 0 inclusive to 5 exclusive. -/
theorem backoff_monotone (n : ℕ) (j1 j2 : ℚ)
    (hj1 : 0 ≤ j1) (hj1u : j1 < 5) (hj2 : 0 ≤ j2) (hj2u : j2 < 5)
    (hcap : backoffTime n < 300) :
    waitTime n j1 ≤ waitTime (n + 1) j2 := by
  have hg := backoff_gap n hcap
  have hg' : (backoffTime n : ℚ) + 5 ≤ (backoffTime (n + 1) : ℚ) := by
    exact_mod_cast hg
  simp only [waitTime]
  linarith

/-- C3 witness: wait for retry 1 with maximal jitter observed is at most wait
for retry 2 with zero jitter. -/
theorem backoff_monotone_witness :
    (0 : ℚ) ≤ 4 ∧ (4 : ℚ) < 5 ∧ (0 : ℚ) ≤ 0 ∧ (0 : ℚ) < 5 ∧ backoffTime 1 < 300 ∧
    waitTime 1 4 ≤ waitTime 2 0 :=
  ⟨by norm_num, by norm_num, le_refl 0, by norm_num, by decide,
    backoff_monotone 1 4 0 (by norm_num) (by norm_num) (le_refl 0) (by norm_num) (by decide)⟩

/- ### Classifier lemmas -/

theorem mem_addOnce (l : List PyStr) (x y : PyStr) :
    y ∈ addOnce l x ↔ y ∈ l ∨ y = x := by
  simp only [addOnce]
  split
  · rename_i h
    simp only [List.elem_eq_mem, decide_eq_true_eq] at h
    constructor
    · exact fun hy => Or.inl hy
    · rintro (hy | rfl)
      · exact hy
      · exact h
  · simp

theorem nodup_addOnce (l : List PyStr) (x : PyStr) (h : l.Nodup) : (addOnce l x).Nodup := by
  simp only [addOnce]
  split
  · exact h
  · rename_i hc
    simp only [List.elem_eq_mem, decide_eq_true_eq] at hc
    simp [List.nodup_append, h, hc]

theorem slotColor_fst (acc : List PyStr × List PyStr) (o : Option PyStr) :
    (slotColor acc o).1 = acc.1 := by
  cases o with
  | none => rfl
  | some s =>
    simp only [slotColor]
    split <;> rfl

theorem slotClassify_fst (acc : List PyStr × List PyStr) (o : Option PyStr) :
    (slotClassify acc o).1 = acc.1 ∨
      ∃ t, sizePat (upperL t) = true ∧ (slotClassify acc o).1 = addOnce acc.1 t := by
  cases o with
  | none => exact Or.inl rfl
  | some s =>
    simp only [slotClassify]
    split
    · exact Or.inl rfl
    · split
      · rename_i hp
        exact Or.inr ⟨pyStrip s, hp, rfl⟩
      · exact Or.inl rfl

theorem sizes_inv_step (acc : List PyStr × List PyStr) (v : Variant)
    (h1 : acc.1.Nodup) (h2 : ∀ l ∈ acc.1, sizePat (upperL l) = true) :
    (classifyVariant acc v).1.Nodup ∧
      ∀ l ∈ (classifyVariant acc v).1, sizePat (upperL l) = true := by
  have step : ∀ (a : List PyStr × List PyStr) (o : Option PyStr),
      a.1.Nodup → (∀ l ∈ a.1, sizePat (upperL l) = true) →
      (slotClassify a o).1.Nodup ∧ ∀ l ∈ (slotClassify a o).1, sizePat (upperL l) = true := by
    intro a o ha1 ha2
    rcases slotClassify_fst a o with he | ⟨t, ht, he⟩
    · rw [he]; exact ⟨ha1, ha2⟩
    · rw [he]
      refine ⟨?_, ?_⟩
      · by_cases hm : t ∈ a.1
        · simpa [addOnce, List.elem_eq_mem, hm] using ha1
        · exact nodup_addOnce _ _ ha1
      · intro l hl
        rcases (mem_addOnce a.1 t l).mp hl with hl' | rfl
        · exact ha2 l hl'
        · exact ht
  simp only [classifyVariant, slotColor_fst]
  have s1 := step acc v.option1 h1 h2
  exact step _ v.option2 s1.1 s1.2

theorem sizes_inv (vs : List Variant) (acc : List PyStr × List PyStr)
    (h1 : acc.1.Nodup) (h2 : ∀ l ∈ acc.1, sizePat (upperL l) = true) :
    (vs.foldl classifyVariant acc).1.Nodup ∧
      ∀ l ∈ (vs.foldl classifyVariant acc).1, sizePat (upperL l) = true := by
  induction vs generalizing acc with
  | nil => exact ⟨h1, h2⟩
  | cons v t ih =>
    have hs := sizes_inv_step acc v h1 h2
    exact ih (classifyVariant acc v) hs.1 hs.2

instance : IsTotal PyStr (fun a b => sizeRank a ≤ sizeRank b) :=
  ⟨fun a b => Nat.le_total _ _⟩

instance : IsTrans PyStr (fun a b => sizeRank a ≤ sizeRank b) :=
  ⟨fun _ _ _ hab hbc => Nat.le_trans hab hbc⟩

/-- C4 amended: for every variant list, the output size list is ranked
non-decreasingly by the canonical `size_order` rank (rank 999 for numeric
labels, so all named ranks come first), every label matches the size regex
(canonical vocabulary or purely numeric, up to upper-casing), and no label
appears twice. Numeric labels keep their first-seen order, they are not
sorted by numeric value. -/
theorem size_list_spec (vs : List Variant) :
    (sortSizes (classifyVariants vs).1).Pairwise (fun a b => sizeRank a ≤ sizeRank b) ∧
    ((sortSizes (classifyVariants vs).1).all (fun l => sizePat (upperL l)) = true) ∧
    (sortSizes (classifyVariants vs).1).Nodup := by
  have hinv := sizes_inv vs ([], []) List.nodup_nil (by intro l hl; cases hl)
  have hperm := List.perm_insertionSort
    (fun a b => sizeRank a ≤ sizeRank b) (classifyVariants vs).1
  refine ⟨?_, ?_, ?_⟩
  · exact List.sorted_insertionSort _ _
  · rw [List.all_eq_true]
    intro l hl
    exact hinv.2 l (hperm.mem_iff.mp hl)
  · exact hperm.nodup_iff.mpr hinv.1

/-- C4 counterexample: two purely numeric sizes 10 and 2, seen in that order,
come out as 10 before 2 (both have rank 999 and the stable sort keeps their
accumulation order), so unranked numeric sizes are not sorted by numeric
value. -/
theorem size_sort_cex :
    sortSizes (classifyVariants
        [⟨some "10".data, none, none, none, none⟩,
         ⟨some "2".data, none, none, none, none⟩]).1 = ["10".data, "2".data] ∧
    ¬ (digitsToNat "10".data ≤ digitsToNat "2".data) := by
  constructor
  · decide
  · decide

/-- C5 amended: the uppercase-and-match classification rule is applied to the
option1 and option2 slots only; a truthy option3 value is always classified
as a color, with no size check. -/
theorem option_slot_spec (s : PyStr) (hs : s ≠ []) :
    (classifyVariants [⟨some s, none, none, none, none⟩] =
      if sizePat (upperL (pyStrip s)) then ([pyStrip s], []) else ([], [pyStrip s])) ∧
    (classifyVariants [⟨none, some s, none, none, none⟩] =
      if sizePat (upperL (pyStrip s)) then ([pyStrip s], []) else ([], [pyStrip s])) ∧
    (classifyVariants [⟨none, none, some s, none, none⟩] = ([], [pyStrip s])) := by
  have he : s.isEmpty = false := by simp [List.isEmpty_iff, hs]
  refine ⟨?_, ?_, ?_⟩ <;>
    simp only [classifyVariants, List.foldl_cons, List.foldl_nil, classifyVariant,
      slotClassify, slotColor, he, Bool.false_eq_true, if_false] <;>
    first
    | (split <;> simp_all [addOnce, List.elem_eq_mem])
    | simp_all [addOnce, List.elem_eq_mem]

/-- C5 witness: instantiation at the nonempty option value M. -/
theorem option_slot_spec_witness :
    ("M".data ≠ []) ∧
    (classifyVariants [⟨some "M".data, none, none, none, none⟩] =
      if sizePat (upperL (pyStrip "M".data)) then ([pyStrip "M".data], [])
      else ([], [pyStrip "M".data])) :=
  ⟨by decide, (option_slot_spec "M".data (by decide)).1⟩

/-- C5 counterexample: the value M matches the canonical size vocabulary, yet
in the option3 slot it is classified as a color, so the classification rule
is not applied to every option slot. -/
theorem option3_classification_cex :
    sizePat (upperL (pyStrip "M".data)) = true ∧
    classifyVariants [⟨none, none, some "M".data, none, none⟩] = ([], ["M".data]) := by
  constructor
  · decide
  · decide

/- ### Item construction lemmas -/

theorem buildItem_fields (url : PyStr) (p : Payload) (it : Item)
    (h : buildItem url p = some it) :
    it.size_list = sortSizes (classifyVariants p.variants).1 ∧
    it.color_list = sortColors (classifyVariants p.variants).2 ∧
    it.price = (match p.variants with
      | [] => none
      | v :: _ => pyFloat (v.price.getD (PVal.num 0))) := by
  rcases hv : p.variants with _ | ⟨v, vs⟩ <;>
    simp only [buildItem, hv] at h
  · simp only [Option.some.injEq] at h
    subst h
    simp [hv]
  · cases hf : pyFloat (v.price.getD (PVal.num 0)) with
    | none => rw [hf] at h; cases h
    | some q =>
      rw [hf] at h
      simp only [Option.some.injEq] at h
      subst h
      simp [hv, hf]

theorem buildItem_none_iff (url : PyStr) (p : Payload) :
    buildItem url p = none ↔
      ∃ v vs, p.variants = v :: vs ∧ pyFloat (v.price.getD (PVal.num 0)) = none := by
  rcases hv : p.variants with _ | ⟨v, vs⟩ <;> simp only [buildItem, hv]
  · simp [hv]
  · cases hf : pyFloat (v.price.getD (PVal.num 0)) <;> simp [hf, hv]

theorem contains_false_of_all (P : PyStr → Bool) (l : List PyStr) (x : PyStr)
    (hall : ∀ y ∈ l, P y = true) (hx : P x = false) : l.contains x = false := by
  cases hc : l.contains x
  · rfl
  · exfalso
    simp only [List.elem_eq_mem, decide_eq_true_eq] at hc
    rw [hall x hc] at hx
    cases hx

/-- C6 amended: the size list of an extracted item never contains the literal
placeholder Default Title or the empty string, because both fail the size
vocabulary test; raw empty option values are discarded, but the color list
has no such protection (see the counterexample). -/
theorem placeholder_sizes_spec (url : PyStr) (p : Payload) (it : Item)
    (h : buildItem url p = some it) :
    it.size_list.contains "Default Title".data = false ∧
    it.size_list.contains [] = false := by
  have hf := (buildItem_fields url p it h).1
  have hinv := sizes_inv p.variants ([], []) List.nodup_nil (by intro l hl; cases hl)
  have hperm := List.perm_insertionSort
    (fun a b => sizeRank a ≤ sizeRank b) (classifyVariants p.variants).1
  have hall : ∀ l ∈ it.size_list, sizePat (upperL l) = true := by
    rw [hf]
    intro l hl
    exact hinv.2 l (hperm.mem_iff.mp hl)
  constructor
  · exact contains_false_of_all (fun y => sizePat (upperL y)) _ _ hall (by decide)
  · exact contains_false_of_all (fun y => sizePat (upperL y)) _ _ hall (by decide)

/-- C6 witness: a product whose variant has option value M is extracted with
size list [M], containing neither placeholder. -/
theorem placeholder_sizes_spec_witness :
    buildItem [] ⟨none, none, [⟨some "M".data, none, none, none, none⟩], []⟩ =
      some ⟨[], none, "₹".data, some 0, none, ["M".data], [], some "M".data, none, []⟩ ∧
    (["M".data] : List PyStr).contains "Default Title".data = false :=
  ⟨by decide,
    (placeholder_sizes_spec [] ⟨none, none, [⟨some "M".data, none, none, none, none⟩], []⟩
      ⟨[], none, "₹".data, some 0, none, ["M".data], [], some "M".data, none, []⟩ (by decide)).1⟩

/-- C6 counterexample: a variant whose option1 is the literal Default Title
and whose option2 is whitespace yields a color list containing Default Title
and the empty string, so placeholder values are not discarded before
classification. -/
theorem placeholder_cex :
    ((buildItem [] ⟨none, none,
        [⟨some "Default Title".data, some "   ".data, none, none, none⟩], []⟩).map
      (fun it => it.color_list.contains "Default Title".data)) = some true ∧
    ((buildItem [] ⟨none, none,
        [⟨some "Default Title".data, some "   ".data, none, none, none⟩], []⟩).map
      (fun it => it.color_list.contains [])) = some true := by
  constructor
  · decide
  · decide

/-- C9 amended: with the budget not reached, extraction yields no item exactly
when the document is malformed JSON, has an absent or empty product object,
or the first variant carries a price value that the float conversion rejects
(the generic exception handler then skips the document); a payload whose
optional fields are all absent still yields an item, so missing optional
fields never cause failure. -/
theorem extraction_failure_spec (count maxP : ℕ) (doc : PDoc) (url : PyStr)
    (hbudget : count < maxP) :
    (parseProductJson count maxP doc url = none ↔
      doc = PDoc.malformed ∨ doc = PDoc.parsed none ∨
      ∃ p v vs, doc = PDoc.parsed (some p) ∧ p.variants = v :: vs ∧
        pyFloat (v.price.getD (PVal.num 0)) = none) ∧
    (∀ imgs, (parseProductJson count maxP
        (PDoc.parsed (some ⟨none, none, [], imgs⟩)) url).isSome = true) ∧
    (∀ imgs, (parseProductJson count maxP
        (PDoc.parsed (some ⟨none, none, [⟨none, none, none, none, none⟩], imgs⟩))
        url).isSome = true) := by
  have hnot : ¬ count ≥ maxP := by omega
  refine ⟨?_, ?_, ?_⟩
  · cases doc with
    | malformed => simp [parseProductJson, hnot]
    | parsed prod =>
      cases prod with
      | none => simp [parseProductJson, hnot]
      | some p =>
        simp only [parseProductJson, hnot, if_false, ge_iff_le]
        rw [buildItem_none_iff]
        constructor
        · rintro ⟨v, vs, hv, hf⟩
          exact Or.inr (Or.inr ⟨p, v, vs, rfl, hv, hf⟩)
        · rintro (hc | hc | ⟨p', v, vs, hp', hv, hf⟩)
          · cases hc
          · cases hc
          · cases hp'
            exact ⟨v, vs, hv, hf⟩
  · intro imgs
    simp [parseProductJson, hnot, buildItem]
  · intro imgs
    simp [parseProductJson, hnot, buildItem, pyFloat]

/-- C9 witness: with a fresh budget, the all-fields-absent payload with no
variants is extracted successfully. -/
theorem extraction_failure_spec_witness :
    0 < 1000 ∧
    (parseProductJson 0 1000 (PDoc.parsed (some ⟨none, none, [], []⟩)) []).isSome = true :=
  ⟨by omega,
    (extraction_failure_spec 0 1000 (PDoc.parsed (some ⟨none, none, [], []⟩)) []
      (by omega)).2.1 []⟩

/-- C9 counterexample: a parsed JSON document with a product object whose
first variant has the unconvertible price string abc produces no item, so
extraction can fail on a document that parses and has a product object. -/
theorem extraction_failure_cex :
    parseProductJson 0 1000
      (PDoc.parsed (some ⟨none, none,
        [⟨none, none, none, some (PVal.str "abc".data), none⟩], []⟩)) [] = none ∧
    PDoc.parsed (some ⟨none, none,
        [⟨none, none, none, some (PVal.str "abc".data), none⟩], []⟩) ≠ PDoc.malformed ∧
    PDoc.parsed (some ⟨none, none,
        [⟨none, none, none, some (PVal.str "abc".data), none⟩], []⟩) ≠ PDoc.parsed none := by
  refine ⟨by decide, by decide, by decide⟩

/-- C10: for a successfully extracted item, a non-empty variants array whose
first variant lacks a price value yields the price 0.0 (the float of the
default 0), and the price field is absent exactly when the variants array is
empty. -/
theorem default_price_spec (url : PyStr) (p : Payload) (it : Item)
    (h : buildItem url p = some it) :
    (∀ v vs, p.variants = v :: vs → v.price = none → it.price = some 0) ∧
    (it.price = none ↔ p.variants = []) := by
  have hf := (buildItem_fields url p it h).2.2
  constructor
  · intro v vs hv hp
    rw [hf, hv]
    show pyFloat (v.price.getD (PVal.num 0)) = some 0
    rw [hp]
    rfl
  · rw [hf]
    rcases hvv : p.variants with _ | ⟨v, vs⟩
    · simp
    · simp only []
      constructor
      · intro hn
        exfalso
        have : buildItem url p ≠ none := by rw [h]; exact Option.some_ne_none it
        exact this ((buildItem_none_iff url p).mpr ⟨v, vs, hvv, hn⟩)
      · intro hc
        cases hc

/-- C10 witness: a payload whose single variant has no price key is extracted
with price 0.0. -/
theorem default_price_spec_witness :
    buildItem [] ⟨none, none, [⟨none, none, none, none, none⟩], []⟩ =
      some ⟨[], none, "₹".data, some 0, none, [], [], none, none, []⟩ ∧
    (Item.price ⟨[], none, "₹".data, some 0, none, [], [], none, none, []⟩) = some 0 :=
  ⟨by decide,
    (default_price_spec [] ⟨none, none, [⟨none, none, none, none, none⟩], []⟩
      ⟨[], none, "₹".data, some 0, none, [], [], none, none, []⟩ (by decide)).1
      ⟨none, none, none, none, none⟩ [] rfl rfl⟩

/- ### Price parsing of `_extract_price` and `_extract_numeric_price` -/

/-- One character of the regex class `[\d,]`. -/
def priceCls (c : Char) : Bool := digitC c || c == ','

/-- Greedy match of `[\d,]+` followed by the optional group `\.\d` twice, at
the current position. -/
def grabTok (l : PyStr) : PyStr :=
  let run := l.takeWhile priceCls
  match l.drop run.length with
  | '.' :: d1 :: d2 :: _ => if digitC d1 && digitC d2 then run ++ ['.', d1, d2] else run
  | _ => run

/-- The `re.search` scan: the match at the first position where the price
pattern can start. -/
def searchPrice : PyStr → Option PyStr
  | [] => none
  | c :: t => if priceCls c then some (grabTok (c :: t)) else searchPrice t

/-- Numeric value of a matched token, the `float` call on the match. -/
def tokValue (tok : PyStr) : ℚ :=
  let ip := tok.takeWhile (fun c => c != '.')
  match tok.drop ip.length with
  | '.' :: fr => (digitsToNat ip : ℚ) + fracVal fr
  | _ => (digitsToNat ip : ℚ)

/-- The spider `_extract_price`: `None` for an absent or falsy input, comma
removal, regex search, float conversion of the match. -/
def extractPrice (txt : Option PyStr) : Option ℚ :=
  match txt with
  | none => none
  | some l =>
    if l.isEmpty then none
    else
      match searchPrice (l.filter (fun c => c != ',')) with
      | none => none
      | some tok => some (tokValue tok)

/-- The pipeline `_extract_numeric_price`, the same computation as the
spider `_extract_price`. -/
def extractNumericPrice (txt : Option PyStr) : Option ℚ := extractPrice txt

theorem searchPrice_skip (p l : PyStr) (h : ∀ c ∈ p, priceCls c = false) :
    searchPrice (p ++ l) = searchPrice l := by
  induction p with
  | nil => rfl
  | cons c t ih =>
    have hc := h c (List.mem_cons_self c t)
    simp only [List.cons_append, searchPrice, hc, Bool.false_eq_true, if_false]
    exact ih (fun x hx => h x (List.mem_cons_of_mem c hx))

theorem filter_no_price (l : PyStr) (hd : l.all (fun c => !digitC c) = true) :
    ∀ c ∈ l.filter (fun c => c != ','), priceCls c = false := by
  intro c hc
  rw [List.mem_filter] at hc
  have h1 : digitC c = false := by
    have := (List.all_eq_true.mp hd) c hc.1
    simpa using this
  have h2 : (c == ',') = false := by
    simpa using hc.2
  simp [priceCls, h1, h2]

/-- C8: prefixing the price 1,299.50 with any digit-free decoration (such as
a currency symbol) parses to the decimal 1299.50; a digit-free string parses
to `None`, in the spider and in the pipeline; an absent input parses to
`None`. -/
theorem price_parse_spec :
    (∀ pre : PyStr, pre.all (fun c => !digitC c) = true →
      extractPrice (some (pre ++ "1,299.50".data)) = some (1299.5 : ℚ)) ∧
    (∀ l : PyStr, l.all (fun c => !digitC c) = true →
      extractNumericPrice (some l) = none) ∧
    extractPrice none = none := by
  refine ⟨?_, ?_, rfl⟩
  · intro pre hpre
    have hne : (pre ++ "1,299.50".data).isEmpty = false := by
      cases h : (pre ++ "1,299.50".data).isEmpty
      · rfl
      · rw [List.isEmpty_iff] at h
        have := congrArg List.length h
        simp at this
    have h0 : "1,299.50".data.filter (fun c => c != ',') = "1299.50".data := by decide
    have hfil : (pre ++ "1,299.50".data).filter (fun c => c != ',') =
        pre.filter (fun c => c != ',') ++ "1299.50".data := by
      rw [List.filter_append, h0]
    have hskip := searchPrice_skip (pre.filter (fun c => c != ',')) "1299.50".data
      (filter_no_price pre hpre)
    have hsp : searchPrice "1299.50".data = some "1299.50".data := by decide
    have htw : "1299.50".data.takeWhile (fun c => c != '.') = "1299".data := by decide
    have hd1 : digitsToNat "1299".data = 1299 := by decide
    have hd2 : digitsToNat "50".data = 50 := by decide
    have htok : tokValue "1299.50".data = (1299.5 : ℚ) := by
      show (digitsToNat ("1299.50".data.takeWhile (fun c => c != '.')) : ℚ) +
        fracVal "50".data = 1299.5
      rw [htw, hd1]
      show (1299 : ℕ) + (digitsToNat "50".data : ℚ) / 10 ^ (2 : ℕ) = 1299.5
      rw [hd2]
      norm_num
    simp only [extractPrice, hne, Bool.false_eq_true, if_false, hfil, hskip, hsp, htok]
  · intro l hl
    simp only [extractNumericPrice, extractPrice]
    cases he : l.isEmpty
    · simp only [Bool.false_eq_true, if_false]
      have hskip := searchPrice_skip (l.filter (fun c => c != ',')) []
        (filter_no_price l hl)
      rw [List.append_nil] at hskip
      rw [hskip]
      rfl
    · rfl

/-- C8 witness: the rupee-prefixed price parses to 1299.50 and a pure-letter
string parses to `None`. -/
theorem price_parse_spec_witness :
    ("₹".data.all (fun c => !digitC c) = true) ∧
    extractPrice (some ("₹".data ++ "1,299.50".data)) = some (1299.5 : ℚ) ∧
    ("abc".data.all (fun c => !digitC c) = true) ∧
    extractNumericPrice (some "abc".data) = none :=
  ⟨by decide, price_parse_spec.1 "₹".data (by decide), by decide,
    price_parse_spec.2.1 "abc".data (by decide)⟩

/- ### Substring machinery for the image URL cleaner -/

/-- Python `in` on strings: the pattern occurs somewhere in the list. -/
def hasSub : List Char → List Char → Bool
  | [], pat => pat.isEmpty
  | c :: t, pat => pat.isPrefixOf (c :: t) || hasSub t pat

theorem pre_extend (p a b : List Char) (h : p.isPrefixOf a = true) :
    p.isPrefixOf (a ++ b) = true := by
  induction p generalizing a with
  | nil => exact List.isPrefixOf_nil_left
  | cons x q ih =>
    cases a with
    | nil => simp at h
    | cons y t =>
      simp only [List.isPrefixOf_cons₂, Bool.and_eq_true, beq_iff_eq] at h
      simp only [List.cons_append, List.isPrefixOf_cons₂, Bool.and_eq_true, beq_iff_eq]
      exact ⟨h.1, ih t h.2⟩

theorem pre_append_cases (p : List Char) (a b : List Char)
    (h : p.isPrefixOf (a ++ b) = true) :
    p.isPrefixOf a = true ∨ ∃ c, b.head? = some c ∧ c ∈ p := by
  induction p generalizing a with
  | nil => exact Or.inl List.isPrefixOf_nil_left
  | cons x q ih =>
    cases a with
    | nil =>
      cases b with
      | nil => simp at h
      | cons y t =>
        simp only [List.nil_append, List.isPrefixOf_cons₂, Bool.and_eq_true, beq_iff_eq] at h
        exact Or.inr ⟨y, rfl, h.1 ▸ List.mem_cons_self x q⟩
    | cons z a' =>
      simp only [List.cons_append, List.isPrefixOf_cons₂, Bool.and_eq_true, beq_iff_eq] at h
      obtain ⟨rfl, h2⟩ := h
      rcases ih a' h2 with h3 | ⟨c, hc1, hc2⟩
      · left
        simp [List.isPrefixOf_cons₂, h3]
      · exact Or.inr ⟨c, hc1, List.mem_cons_of_mem _ hc2⟩

theorem pre_mem (p l : List Char) (h : p.isPrefixOf l = true) (c : Char) (hc : c ∈ p) :
    c ∈ l := by
  induction p generalizing l with
  | nil => cases hc
  | cons x q ih =>
    cases l with
    | nil => simp at h
    | cons y t =>
      simp only [List.isPrefixOf_cons₂, Bool.and_eq_true, beq_iff_eq] at h
      rcases List.mem_cons.mp hc with rfl | hc2
      · exact h.1 ▸ List.mem_cons_self y t
      · exact List.mem_cons_of_mem _ (ih t h.2 hc2)

theorem hasSub_nil_pat (l : List Char) : hasSub l [] = true := by
  cases l with
  | nil => rfl
  | cons c t => simp [hasSub, List.isPrefixOf]

theorem hasSub_append_left (l1 l2 p : List Char) (h : hasSub l1 p = true) :
    hasSub (l1 ++ l2) p = true := by
  induction l1 with
  | nil =>
    simp only [hasSub, List.isEmpty_iff] at h
    subst h
    simp [hasSub_nil_pat]
  | cons c t ih =>
    simp only [hasSub, Bool.or_eq_true] at h
    simp only [List.cons_append, hasSub, Bool.or_eq_true]
    rcases h with h | h
    · exact Or.inl (by simpa using pre_extend p (c :: t) l2 h)
    · exact Or.inr (ih h)

theorem hasSub_mem (l p : List Char) (h : hasSub l p = true) (c : Char) (hc : c ∈ p) :
    c ∈ l := by
  induction l with
  | nil =>
    simp only [hasSub, List.isEmpty_iff] at h
    subst h
    cases hc
  | cons d t ih =>
    simp only [hasSub, Bool.or_eq_true] at h
    rcases h with h | h
    · exact pre_mem p (d :: t) h c hc
    · exact List.mem_cons_of_mem _ (ih h)

theorem hasSub_append_no (l1 l2 p : List Char)
    (h1 : hasSub l1 p = false) (h2 : hasSub l2 p = false)
    (hh : ∀ c, l2.head? = some c → c ∉ p) :
    hasSub (l1 ++ l2) p = false := by
  induction l1 with
  | nil => simpa using h2
  | cons c t ih =>
    simp only [hasSub, Bool.or_eq_false_iff] at h1
    simp only [List.cons_append, hasSub, Bool.or_eq_false_iff]
    refine ⟨?_, ih h1.2⟩
    cases hp : p.isPrefixOf (c :: (t ++ l2))
    · rfl
    · exfalso
      have := pre_append_cases p (c :: t) l2 (by simpa using hp)
      rcases this with h3 | ⟨d, hd1, hd2⟩
      · rw [h1.1] at h3
        cases h3
      · exact hh d hd1 hd2

theorem digit_toLower (c : Char) (h : digitC c = true) : c.toLower = c := by
  have hm : c ∈ ['0','1','2','3','4','5','6','7','8','9'] := by
    simpa [digitC] using h
  simp only [List.mem_cons, List.not_mem_nil, or_false] at hm
  rcases hm with rfl | rfl | rfl | rfl | rfl | rfl | rfl | rfl | rfl | rfl <;> decide

theorem digit_not_in_nim (c : Char) (h : digitC c = true) : c ∉ "no-image".data := by
  intro hm
  have hm' : c ∈ ['n','o','-','i','m','a','g','e'] := by
    simpa using hm
  simp only [List.mem_cons, List.not_mem_nil, or_false] at hm'
  rcases hm' with rfl | rfl | rfl | rfl | rfl | rfl | rfl | rfl <;> simp [digitC] at h

theorem lowerL_digits (n : List Char) (h : ∀ c ∈ n, digitC c = true) : lowerL n = n := by
  induction n with
  | nil => rfl
  | cons c t ih =>
    simp only [lowerL, List.map_cons]
    rw [digit_toLower c (h c (List.mem_cons_self c t))]
    congr 1
    exact ih (fun x hx => h x (List.mem_cons_of_mem c hx))

theorem digits_no_nim (n : List Char) (h : ∀ c ∈ n, digitC c = true) :
    hasSub (lowerL n) "no-image".data = false := by
  rw [lowerL_digits n h]
  cases hc : hasSub n "no-image".data
  · rfl
  · exfalso
    have hn : 'n' ∈ n := hasSub_mem n "no-image".data hc 'n' (by decide)
    exact absurd (h 'n' hn) (by decide)

/-- The `re.search` for the pattern `v=` followed by at least one digit in the
raw image source, capturing the digit group of the first match. -/
def vDigits : List Char → Option (List Char)
  | [] => none
  | c :: rest =>
    if c = 'v' then
      match rest with
      | c2 :: r2 =>
        if c2 = '=' then
          (if (r2.takeWhile digitC).isEmpty then vDigits rest else some (r2.takeWhile digitC))
        else vDigits rest
      | [] => vDigits rest
    else vDigits rest

theorem vDigits_not_v (c : Char) (rest : List Char) (hc : ¬ c = 'v') :
    vDigits (c :: rest) = vDigits rest := by
  simp only [vDigits, if_neg hc]

theorem vDigits_v_ne (c2 : Char) (r2 : List Char) (hc2 : ¬ c2 = '=') :
    vDigits ('v' :: c2 :: r2) = vDigits (c2 :: r2) := by
  simp only [vDigits, if_pos rfl, if_neg hc2, ite_self, if_true]

theorem vDigits_v_eq (r2 : List Char) :
    vDigits ('v' :: '=' :: r2) =
      (if (r2.takeWhile digitC).isEmpty then vDigits ('=' :: r2)
       else some (r2.takeWhile digitC)) := by
  simp only [vDigits, if_pos rfl, ite_self, if_true]

theorem vDigits_v_nil : vDigits ['v'] = none := by
  simp only [vDigits, if_pos rfl, ite_self, if_true]

theorem vDigits_digits (l d : List Char) (h : vDigits l = some d) :
    (∀ c ∈ d, digitC c = true) ∧ d ≠ [] := by
  induction l with
  | nil => cases h
  | cons c rest ih =>
    by_cases hc : c = 'v'
    · subst hc
      cases rest with
      | nil =>
        rw [vDigits_v_nil] at h
        cases h
      | cons c2 r2 =>
        by_cases hc2 : c2 = '='
        · subst hc2
          rw [vDigits_v_eq] at h
          by_cases he : (r2.takeWhile digitC).isEmpty
          · rw [if_pos he] at h
            exact ih h
          · rw [if_neg he] at h
            obtain rfl := Option.some.inj h
            refine ⟨fun x hx => List.mem_takeWhile_imp hx, ?_⟩
            intro hnil
            rw [hnil] at he
            exact he rfl
        · rw [vDigits_v_ne c2 r2 hc2] at h
          exact ih h
    · rw [vDigits_not_v c rest hc] at h
      exact ih h

theorem pyReplaceAux_no_occ (pt rep : List Char) (l : List Char) (fuel : ℕ)
    (hf : l.length ≤ fuel) (h : ∀ c ∈ l, c ≠ '?') :
    pyReplaceAux ('?' :: pt) rep fuel l = l := by
  induction l generalizing fuel with
  | nil => cases fuel <;> rfl
  | cons c t ih =>
    cases fuel with
    | zero =>
      simp only [List.length_cons] at hf
      omega
    | succ f =>
      have hcq : ('?' == c) = false := by
        rw [beq_eq_false_iff_ne]
        exact fun he => h c (List.mem_cons_self c t) he.symm
      have hne : (('?' :: pt).isPrefixOf (c :: t)) = false := by
        rw [List.isPrefixOf_cons₂, hcq, Bool.false_and]
      simp only [pyReplaceAux, hne, Bool.false_eq_true, if_false]
      congr 1
      refine ih f ?_ (fun x hx => h x (List.mem_cons_of_mem c hx))
      simp only [List.length_cons] at hf
      omega

theorem pyReplaceAux_clean (pt rep : List Char) (q r : List Char)
    (hq : ∀ c ∈ q, c ≠ '?') :
    ∀ fuel, q.length + r.length ≤ fuel →
      pyReplaceAux ('?' :: pt) rep fuel (q ++ r) =
        q ++ pyReplaceAux ('?' :: pt) rep (fuel - q.length) r := by
  induction q with
  | nil =>
    intro fuel hf
    simp
  | cons c t ih =>
    intro fuel hf
    cases fuel with
    | zero =>
      simp only [List.length_cons] at hf
      omega
    | succ f =>
      have hcq : ('?' == c) = false := by
        rw [beq_eq_false_iff_ne]
        exact fun he => hq c (List.mem_cons_self c t) he.symm
      have hne : (('?' :: pt).isPrefixOf (c :: (t ++ r))) = false := by
        rw [List.isPrefixOf_cons₂, hcq, Bool.false_and]
      simp only [List.cons_append, List.append_eq, pyReplaceAux, hne,
        Bool.false_eq_true, if_false]
      have hlen : f + 1 - (t.length + 1) = f - t.length := by omega
      simp only [List.length_cons, hlen]
      have hrec := ih (fun x hx => hq x (List.mem_cons_of_mem c hx)) f
        (by simp only [List.length_cons] at hf; omega)
      simp only [List.append_eq] at hrec ⊢
      rw [hrec]

theorem pyReplaceAux_hit (pat rep : List Char) (fuel : ℕ) (c : Char) (t : List Char)
    (h : (pat.isPrefixOf (c :: t)) = true) :
    pyReplaceAux pat rep (fuel + 1) (c :: t) =
      rep ++ pyReplaceAux pat rep fuel ((c :: t).drop pat.length) := by
  simp only [pyReplaceAux, h, if_true]

theorem pyReplace_width (q0 rep : List Char) (hq : ∀ c ∈ q0, c ≠ '?') :
    pyReplace (q0 ++ "?width=1200".data) "?width=".data rep = q0 ++ rep ++ "1200".data := by
  show pyReplaceAux ('?' :: "width=".data) rep
    (q0 ++ "?width=1200".data).length (q0 ++ "?width=1200".data) = q0 ++ rep ++ "1200".data
  rw [List.length_append]
  rw [pyReplaceAux_clean "width=".data rep q0 "?width=1200".data hq
    (q0.length + "?width=1200".data.length) (le_refl _)]
  rw [List.append_assoc]
  congr 1
  have hl11 : ("?width=1200".data).length = 11 := by decide
  have hlen : q0.length + ("?width=1200".data).length - q0.length = 11 := by omega
  rw [hlen]
  show pyReplaceAux ('?' :: "width=".data) rep (10 + 1) ('?' :: "width=1200".data) =
    rep ++ "1200".data
  rw [pyReplaceAux_hit ('?' :: "width=".data) rep 10 '?' "width=1200".data (by decide)]
  congr 1

/- ### HTML spider image cleaner -/

theorem pre_drop (p l : List Char) (h : p.isPrefixOf l = true) :
    l = p ++ l.drop p.length := by
  induction p generalizing l with
  | nil => simp
  | cons x q ih =>
    cases l with
    | nil => simp at h
    | cons y t =>
      simp only [List.isPrefixOf_cons₂, Bool.and_eq_true, beq_iff_eq] at h
      obtain ⟨rfl, h2⟩ := h
      simp only [List.cons_append, List.length_cons, List.drop_succ_cons]
      congr 1
      exact ih t h2

/-- Scan for the first occurrence of the scheme marker of a URL, as `urljoin`
locates it; returns the parts before and after. -/
def splitMarker : List Char → Option (List Char × List Char)
  | [] => none
  | c :: r =>
    if List.isPrefixOf "://".data (c :: r) then some ([], r.drop 2)
    else (splitMarker r).map (fun p => (c :: p.1, p.2))

theorem splitMarker_eq (l : List Char) :
    ∀ a b, splitMarker l = some (a, b) → l = a ++ "://".data ++ b := by
  induction l with
  | nil => intro a b h; cases h
  | cons c r ih =>
    intro a b h
    by_cases hp : List.isPrefixOf "://".data (c :: r) = true
    · simp only [splitMarker, if_pos hp] at h
      simp only [Option.some.injEq, Prod.mk.injEq] at h
      obtain ⟨rfl, rfl⟩ := h
      have hd := pre_drop "://".data (c :: r) hp
      simpa using hd
    · simp only [splitMarker, if_neg hp] at h
      cases hsm : splitMarker r with
      | none => rw [hsm] at h; cases h
      | some p =>
        obtain ⟨p1, p2⟩ := p
        rw [hsm] at h
        simp only [Option.map_some', Option.some.injEq, Prod.mk.injEq] at h
        obtain ⟨rfl, rfl⟩ := h
        have hr := ih p1 p2 hsm
        simp [hr]

/-- Python `urljoin(base, src)` for a path-absolute `src`, as used by
`_clean_image_urls`: scheme and network location of the base followed by the
source path. -/
def urljoinSH (base src : List Char) : List Char :=
  match splitMarker base with
  | some p => p.1 ++ "://".data ++ p.2.takeWhile (fun c => c != '/') ++ src
  | none => src

/-- The width-parameter normalization of `_clean_image_urls`: when the URL
carries no width parameter, cut at the query, append the width, and when the
raw source carries a `v=` version, splice it back in front of the width. -/
def addWidth (u0 src : List Char) : List Char :=
  if hasSub u0 "width=".data then u0
  else if hasSub u0 ['?'] then
    let u1 := u0.takeWhile (fun c => c != '?') ++ "?width=1200".data
    if hasSub src "v=".data then
      match vDigits src with
      | some n => pyReplace u1 "?width=".data ("?v=".data ++ n ++ "&width=".data)
      | none => u1
    else u1
  else u0 ++ "?width=1200".data

/-- The absolute-URL resolution branch of `_clean_image_urls`: protocol
relative, path absolute, already absolute, anything else skipped. -/
def imgAbs (base src : List Char) : Option (List Char) :=
  if List.isPrefixOf "//".data src then some ("https:".data ++ src)
  else if List.isPrefixOf "/".data src then some (urljoinSH base src)
  else if List.isPrefixOf "http".data src then some src
  else none

/-- One iteration of the image loop of `_clean_image_urls`: skip falsy and
placeholder sources, resolve, normalize width, keep main-size deduplicated
URLs. -/
def cleanStep (base : List Char) (acc : List (List Char)) (src : List Char) :
    List (List Char) :=
  if src.isEmpty then acc
  else if hasSub (lowerL src) "no-image".data then acc
  else
    match imgAbs base src with
    | none => acc
    | some u0 =>
      if !(acc.contains (addWidth u0 src)) &&
          (hasSub (addWidth u0 src) "width=1200".data ||
            hasSub (addWidth u0 src) "width=800".data) &&
          !(hasSub (addWidth u0 src) "width=300".data) then acc ++ [addWidth u0 src]
      else acc

/-- The whole `_clean_image_urls`: the loop over the sources, then the cap to
the first 10 entries. -/
def cleanImageUrls (base : List Char) (srcs : List (List Char)) : List (List Char) :=
  (srcs.foldl (cleanStep base) []).take 10

/-- One iteration of the pipeline `_validate_image_urls`: keep stripped URLs
that start with http and are not placeholder-flagged, deduplicated. -/
def valStep (acc : List (List Char)) (url : List Char) : List (List Char) :=
  if url.isEmpty then acc
  else
    if List.isPrefixOf "http".data (pyStrip url) &&
        !(hasSub (lowerL (pyStrip url)) "no-image".data) &&
        !(acc.contains (pyStrip url)) then acc ++ [pyStrip url]
    else acc

/-- The pipeline `_validate_image_urls`: no cap on the number of entries. -/
def validateImageUrls (urls : List (List Char)) : List (List Char) := urls.foldl valStep []

theorem hasSub_append_right (l1 l2 p : List Char) (h : hasSub l2 p = true) :
    hasSub (l1 ++ l2) p = true := by
  induction l1 with
  | nil => simpa using h
  | cons c t ih =>
    simp only [List.cons_append, hasSub, Bool.or_eq_true]
    exact Or.inr ih

theorem hasSub_append_no' (l1 l2 : List Char) (c0 : Char) (pt : List Char)
    (h1 : c0 ∉ l1) (h2 : hasSub l2 (c0 :: pt) = false) :
    hasSub (l1 ++ l2) (c0 :: pt) = false := by
  induction l1 with
  | nil => simpa using h2
  | cons d t ih =>
    simp only [List.cons_append, hasSub, Bool.or_eq_false_iff]
    refine ⟨?_, ih (fun hm => h1 (List.mem_cons_of_mem d hm))⟩
    have hd : ¬ c0 = d := fun he => h1 (he ▸ List.mem_cons_self d t)
    rw [List.isPrefixOf_cons₂]
    rw [show (c0 == d) = false from by rwa [beq_eq_false_iff_ne]]
    exact Bool.false_and _

theorem lowerL_append (a b : List Char) : lowerL (a ++ b) = lowerL a ++ lowerL b :=
  List.map_append _ a b

theorem noImg_pre (a b : List Char)
    (h : hasSub (lowerL (a ++ b)) "no-image".data = false) :
    hasSub (lowerL a) "no-image".data = false := by
  cases hc : hasSub (lowerL a) "no-image".data
  · rfl
  · exfalso
    have h2 := hasSub_append_left (lowerL a) (lowerL b) "no-image".data hc
    rw [← lowerL_append] at h2
    rw [h] at h2
    cases h2

theorem noImg_suf (a b : List Char)
    (h : hasSub (lowerL (a ++ b)) "no-image".data = false) :
    hasSub (lowerL b) "no-image".data = false := by
  cases hc : hasSub (lowerL b) "no-image".data
  · rfl
  · exfalso
    have h2 := hasSub_append_right (lowerL a) (lowerL b) "no-image".data hc
    rw [← lowerL_append] at h2
    rw [h] at h2
    cases h2

theorem noImg_takeWhile (l : List Char) (f : Char → Bool)
    (h : hasSub (lowerL l) "no-image".data = false) :
    hasSub (lowerL (l.takeWhile f)) "no-image".data = false := by
  apply noImg_pre _ (l.dropWhile f)
  rw [List.takeWhile_append_dropWhile]
  exact h

theorem noImg_app (a b : List Char)
    (ha : hasSub (lowerL a) "no-image".data = false)
    (hb : hasSub (lowerL b) "no-image".data = false)
    (hh : ∀ c, b.head? = some c → c.toLower ∉ "no-image".data) :
    hasSub (lowerL (a ++ b)) "no-image".data = false := by
  rw [lowerL_append]
  apply hasSub_append_no _ _ _ ha hb
  intro c hc
  cases b with
  | nil => cases hc
  | cons x t =>
    simp only [lowerL, List.map_cons, List.head?_cons, Option.some.injEq] at hc
    subst hc
    exact hh x rfl

theorem noImg_app' (a b : List Char)
    (ha : 'n' ∉ lowerL a)
    (hb : hasSub (lowerL b) "no-image".data = false) :
    hasSub (lowerL (a ++ b)) "no-image".data = false := by
  rw [lowerL_append]
  exact hasSub_append_no' (lowerL a) (lowerL b) 'n' "o-image".data ha hb

theorem isPrefixOf_takeWhile (p l : List Char) (f : Char → Bool)
    (hp : p.isPrefixOf l = true) (hf : p.all f = true) :
    p.isPrefixOf (l.takeWhile f) = true := by
  induction p generalizing l with
  | nil => exact List.isPrefixOf_nil_left
  | cons x q ih =>
    cases l with
    | nil => simp at hp
    | cons y t =>
      simp only [List.isPrefixOf_cons₂, Bool.and_eq_true, beq_iff_eq] at hp
      obtain ⟨rfl, h2⟩ := hp
      simp only [List.all_cons, Bool.and_eq_true] at hf
      rw [List.takeWhile_cons, if_pos hf.1]
      simp only [List.isPrefixOf_cons₂, beq_self_eq_true, Bool.true_and]
      exact ih t h2 hf.2

theorem splitMarker_some (l : List Char) (h : hasSub l "://".data = true) :
    ∃ p, splitMarker l = some p := by
  induction l with
  | nil => simp [hasSub] at h
  | cons c t ih =>
    simp only [hasSub, Bool.or_eq_true] at h
    by_cases hp : List.isPrefixOf "://".data (c :: t) = true
    · refine ⟨([], t.drop 2), ?_⟩
      rw [splitMarker, if_pos hp]
    · rcases h with h | h
      · exact absurd h hp
      · obtain ⟨p, hsm⟩ := ih h
        refine ⟨(c :: p.1, p.2), ?_⟩
        rw [splitMarker, if_neg hp, hsm]
        rfl

theorem hh_of_concrete (x : Char) (rest : List Char) (hx : x.toLower ∉ "no-image".data) :
    ∀ c, (x :: rest).head? = some c → c.toLower ∉ "no-image".data := by
  intro c hc
  obtain rfl : x = c := Option.some.inj hc
  exact hx

theorem urljoinSH_good (base src : List Char)
    (hb1 : List.isPrefixOf "http".data base = true)
    (hb3 : hasSub base "://".data = true)
    (hb2 : hasSub (lowerL base) "no-image".data = false)
    (hsrc : List.isPrefixOf "/".data src = true)
    (hsub : hasSub (lowerL src) "no-image".data = false) :
    List.isPrefixOf "http".data (urljoinSH base src) = true ∧
    hasSub (lowerL (urljoinSH base src)) "no-image".data = false := by
  obtain ⟨p, hsm⟩ := splitMarker_some base hb3
  obtain ⟨p1, p2⟩ := p
  have hbase := splitMarker_eq base p1 p2 hsm
  rw [List.append_assoc] at hbase
  rw [hbase] at hb1 hb2
  unfold urljoinSH
  rw [hsm]
  simp only [List.append_assoc]
  have hp1 : List.isPrefixOf "http".data p1 = true := by
    rcases pre_append_cases "http".data p1 ("://".data ++ p2) hb1 with h | ⟨c, hc1, hc2⟩
    · exact h
    · exfalso
      have hcc : c = ':' := by
        have hh2 : ("://".data ++ p2).head? = some ':' := rfl
        rw [hh2] at hc1
        exact (Option.some.inj hc1).symm
      subst hcc
      exact absurd hc2 (by decide)
  have hfree_p1 : hasSub (lowerL p1) "no-image".data = false :=
    noImg_pre p1 ("://".data ++ p2) hb2
  have hfree_p2 : hasSub (lowerL p2) "no-image".data = false := by
    rw [← List.append_assoc] at hb2
    exact noImg_suf (p1 ++ "://".data) p2 hb2
  have hfree_tw := noImg_takeWhile p2 (fun c => c != '/') hfree_p2
  have hsrc2 : src = '/' :: src.drop 1 := by
    have := pre_drop "/".data src hsrc
    simpa using this
  constructor
  · exact pre_extend _ _ _ hp1
  · have hS1 : hasSub (lowerL (p2.takeWhile (fun c => c != '/') ++ src))
        "no-image".data = false := by
      apply noImg_app _ _ hfree_tw hsub
      rw [hsrc2]
      exact hh_of_concrete '/' (src.drop 1) (by decide)
    have hS2 := noImg_app' "://".data (p2.takeWhile (fun c => c != '/') ++ src)
      (by decide) hS1
    apply noImg_app p1 _ hfree_p1 hS2
    exact hh_of_concrete ':' ('/' :: '/' :: (p2.takeWhile (fun c => c != '/') ++ src))
      (by decide)

theorem addWidth_good (u0 src : List Char)
    (h1 : List.isPrefixOf "http".data u0 = true)
    (h2 : hasSub (lowerL u0) "no-image".data = false) :
    List.isPrefixOf "http".data (addWidth u0 src) = true ∧
    hasSub (lowerL (addWidth u0 src)) "no-image".data = false := by
  have hq0pre : List.isPrefixOf "http".data (u0.takeWhile (fun c => c != '?')) = true :=
    isPrefixOf_takeWhile _ _ _ h1 (by decide)
  have hq0free := noImg_takeWhile u0 (fun c => c != '?') h2
  have hu1good :
      List.isPrefixOf "http".data
        (u0.takeWhile (fun c => c != '?') ++ "?width=1200".data) = true ∧
      hasSub (lowerL (u0.takeWhile (fun c => c != '?') ++ "?width=1200".data))
        "no-image".data = false := by
    constructor
    · exact pre_extend _ _ _ hq0pre
    · apply noImg_app _ _ hq0free (by decide)
      exact hh_of_concrete '?' "width=1200".data (by decide)
  simp only [addWidth]
  split
  · exact ⟨h1, h2⟩
  · split
    · split
      · cases hv : vDigits src with
        | none =>
          simp only [hv]
          exact hu1good
        | some n =>
          simp only [hv]
          have hd := vDigits_digits src n hv
          have hq : ∀ c ∈ u0.takeWhile (fun c => c != '?'), c ≠ '?' := by
            intro c hc
            have := List.mem_takeWhile_imp hc
            simpa using this
          rw [pyReplace_width _ _ hq]
          constructor
          · exact pre_extend _ _ _ (pre_extend _ _ _ hq0pre)
          · simp only [List.append_assoc]
            have hT1 : hasSub (lowerL ("&width=".data ++ "1200".data))
                "no-image".data = false := by decide
            have hT2 : hasSub (lowerL (n ++ ("&width=".data ++ "1200".data)))
                "no-image".data = false := by
              apply noImg_app _ _ (digits_no_nim n hd.1) hT1
              exact hh_of_concrete '&' ("width=".data ++ "1200".data) (by decide)
            have hT3 := noImg_app' "?v=".data (n ++ ("&width=".data ++ "1200".data))
              (by decide) hT2
            apply noImg_app _ _ hq0free hT3
            exact hh_of_concrete '?'
              ('v' :: '=' :: (n ++ ("&width=".data ++ "1200".data))) (by decide)
      · exact hu1good
    · constructor
      · exact pre_extend _ _ _ h1
      · apply noImg_app u0 _ h2 (by decide)
        exact hh_of_concrete '?' "width=1200".data (by decide)

theorem imgAbs_good (base src u0 : List Char)
    (hb1 : List.isPrefixOf "http".data base = true)
    (hb3 : hasSub base "://".data = true)
    (hb2 : hasSub (lowerL base) "no-image".data = false)
    (hsub : hasSub (lowerL src) "no-image".data = false)
    (h : imgAbs base src = some u0) :
    List.isPrefixOf "http".data u0 = true ∧
    hasSub (lowerL u0) "no-image".data = false := by
  unfold imgAbs at h
  split at h
  · obtain rfl := Option.some.inj h
    constructor
    · exact pre_extend _ _ _ (by decide)
    · exact noImg_app' "https:".data src (by decide) hsub
  · split at h
    · rename_i hslash
      obtain rfl := Option.some.inj h
      exact urljoinSH_good base src hb1 hb3 hb2 hslash hsub
    · split at h
      · rename_i hhttp
        obtain rfl := Option.some.inj h
        exact ⟨hhttp, hsub⟩
      · cases h

theorem cleanStep_preserves (base : List Char)
    (hb1 : List.isPrefixOf "http".data base = true)
    (hb3 : hasSub base "://".data = true)
    (hb2 : hasSub (lowerL base) "no-image".data = false)
    (acc : List (List Char)) (s : List Char)
    (h1 : acc.Nodup)
    (h2 : ∀ u ∈ acc, List.isPrefixOf "http".data u = true ∧
      hasSub (lowerL u) "no-image".data = false) :
    (cleanStep base acc s).Nodup ∧
    (∀ u ∈ cleanStep base acc s, List.isPrefixOf "http".data u = true ∧
      hasSub (lowerL u) "no-image".data = false) := by
  by_cases hs : s.isEmpty = true
  · have he : cleanStep base acc s = acc := by
      unfold cleanStep
      rw [if_pos hs]
    rw [he]
    exact ⟨h1, h2⟩
  · by_cases hn : hasSub (lowerL s) "no-image".data = true
    · have he : cleanStep base acc s = acc := by
        unfold cleanStep
        rw [if_neg hs, if_pos hn]
      rw [he]
      exact ⟨h1, h2⟩
    · have hnoF : hasSub (lowerL s) "no-image".data = false := by
        cases hc : hasSub (lowerL s) "no-image".data
        · rfl
        · exact absurd hc hn
      cases him : imgAbs base s with
      | none =>
        have he : cleanStep base acc s = acc := by
          unfold cleanStep
          rw [if_neg hs, if_neg hn, him]
        rw [he]
        exact ⟨h1, h2⟩
      | some u0 =>
        have he : cleanStep base acc s =
            if (!(acc.contains (addWidth u0 s)) &&
                (hasSub (addWidth u0 s) "width=1200".data ||
                  hasSub (addWidth u0 s) "width=800".data) &&
                !(hasSub (addWidth u0 s) "width=300".data)) then acc ++ [addWidth u0 s]
            else acc := by
          unfold cleanStep
          rw [if_neg hs, if_neg hn, him]
        rw [he]
        have hg := imgAbs_good base s u0 hb1 hb3 hb2 hnoF him
        have hgood := addWidth_good u0 s hg.1 hg.2
        by_cases hcond : (!(acc.contains (addWidth u0 s)) &&
            (hasSub (addWidth u0 s) "width=1200".data ||
              hasSub (addWidth u0 s) "width=800".data) &&
            !(hasSub (addWidth u0 s) "width=300".data)) = true
        · rw [if_pos hcond]
          simp only [Bool.and_eq_true, Bool.not_eq_true'] at hcond
          have hnotmem : addWidth u0 s ∉ acc := by
            have hcf := hcond.1.1
            simp only [List.elem_eq_mem, decide_eq_false_iff_not] at hcf
            exact hcf
          constructor
          · simp [List.nodup_append, h1, hnotmem]
          · intro u hu
            rcases List.mem_append.mp hu with h | h
            · exact h2 u h
            · obtain rfl : u = addWidth u0 s := by simpa using h
              exact hgood
        · rw [if_neg hcond]
          exact ⟨h1, h2⟩

theorem clean_fold_inv (base : List Char)
    (hb1 : List.isPrefixOf "http".data base = true)
    (hb3 : hasSub base "://".data = true)
    (hb2 : hasSub (lowerL base) "no-image".data = false)
    (srcs : List (List Char)) :
    ∀ acc : List (List Char),
      acc.Nodup →
      (∀ u ∈ acc, List.isPrefixOf "http".data u = true ∧
        hasSub (lowerL u) "no-image".data = false) →
      (srcs.foldl (cleanStep base) acc).Nodup ∧
      (∀ u ∈ srcs.foldl (cleanStep base) acc, List.isPrefixOf "http".data u = true ∧
        hasSub (lowerL u) "no-image".data = false) := by
  induction srcs with
  | nil => exact fun acc ha hb => ⟨ha, hb⟩
  | cons s t ih =>
    intro acc ha hb
    have hstep := cleanStep_preserves base hb1 hb3 hb2 acc s ha hb
    exact ih (cleanStep base acc s) hstep.1 hstep.2

theorem val_fold_inv (urls : List (List Char)) :
    ∀ acc : List (List Char),
      acc.Nodup →
      (∀ u ∈ acc, List.isPrefixOf "http".data u = true ∧
        hasSub (lowerL u) "no-image".data = false) →
      (urls.foldl valStep acc).Nodup ∧
      (∀ u ∈ urls.foldl valStep acc, List.isPrefixOf "http".data u = true ∧
        hasSub (lowerL u) "no-image".data = false) := by
  induction urls with
  | nil => exact fun acc ha hb => ⟨ha, hb⟩
  | cons s t ih =>
    intro acc ha hb
    have hstep : (valStep acc s).Nodup ∧
        (∀ u ∈ valStep acc s, List.isPrefixOf "http".data u = true ∧
          hasSub (lowerL u) "no-image".data = false) := by
      by_cases hs : s.isEmpty = true
      · have he : valStep acc s = acc := by
          unfold valStep
          rw [if_pos hs]
        rw [he]
        exact ⟨ha, hb⟩
      · by_cases hcond : (List.isPrefixOf "http".data (pyStrip s) &&
            !(hasSub (lowerL (pyStrip s)) "no-image".data) &&
            !(acc.contains (pyStrip s))) = true
        · have he : valStep acc s = acc ++ [pyStrip s] := by
            unfold valStep
            rw [if_neg hs, if_pos hcond]
          rw [he]
          simp only [Bool.and_eq_true, Bool.not_eq_true'] at hcond
          have hnm : pyStrip s ∉ acc := by
            have hcf := hcond.2
            simp only [List.elem_eq_mem, decide_eq_false_iff_not] at hcf
            exact hcf
          constructor
          · simp [List.nodup_append, ha, hnm]
          · intro u hu
            rcases List.mem_append.mp hu with h | h
            · exact hb u h
            · obtain rfl : u = pyStrip s := by simpa using h
              exact ⟨hcond.1.1, hcond.1.2⟩
        · have he : valStep acc s = acc := by
            unfold valStep
            rw [if_neg hs, if_neg hcond]
          rw [he]
          exact ⟨ha, hb⟩
    exact ih (valStep acc s) hstep.1 hstep.2

/-- C7 amended: for the HTML spider `_clean_image_urls`, run against a page
URL that is an absolute http URL free of the placeholder marker, the output
has at most 10 entries, no duplicates, only absolute URLs starting with http,
and no placeholder-flagged entry; the pipeline `_validate_image_urls`
enforces absoluteness, the placeholder filter and deduplication, but imposes
no cap on the number of entries, so the JSON image path has no 10-entry
bound (see the counterexample). -/
theorem clean_image_urls_spec (base : List Char) (srcs : List (List Char))
    (hb1 : List.isPrefixOf "http".data base = true)
    (hb3 : hasSub base "://".data = true)
    (hb2 : hasSub (lowerL base) "no-image".data = false) :
    ((cleanImageUrls base srcs).length ≤ 10 ∧
      (cleanImageUrls base srcs).Nodup ∧
      (cleanImageUrls base srcs).all (fun u => List.isPrefixOf "http".data u) = true ∧
      (cleanImageUrls base srcs).all
        (fun u => !(hasSub (lowerL u) "no-image".data)) = true) ∧
    ((validateImageUrls srcs).Nodup ∧
      (validateImageUrls srcs).all (fun u => List.isPrefixOf "http".data u) = true ∧
      (validateImageUrls srcs).all
        (fun u => !(hasSub (lowerL u) "no-image".data)) = true) := by
  have hinv := clean_fold_inv base hb1 hb3 hb2 srcs [] List.nodup_nil
    (by intro u hu; cases hu)
  have hvinv := val_fold_inv srcs [] List.nodup_nil (by intro u hu; cases hu)
  have hsubl : List.Sublist ((srcs.foldl (cleanStep base) []).take 10)
      (srcs.foldl (cleanStep base) []) := List.take_sublist 10 _
  constructor
  · refine ⟨?_, ?_, ?_, ?_⟩
    · show ((srcs.foldl (cleanStep base) []).take 10).length ≤ 10
      rw [List.length_take]
      exact min_le_left _ _
    · exact List.Sublist.nodup hsubl hinv.1
    · rw [List.all_eq_true]
      intro u hu
      exact (hinv.2 u (hsubl.subset hu)).1
    · rw [List.all_eq_true]
      intro u hu
      have hf := (hinv.2 u (hsubl.subset hu)).2
      simp [hf]
  · refine ⟨hvinv.1, ?_, ?_⟩
    · rw [List.all_eq_true]
      intro u hu
      exact (hvinv.2 u hu).1
    · rw [List.all_eq_true]
      intro u hu
      have hf := (hvinv.2 u hu).2
      simp [hf]

/-- C7 witness: the spec instantiated at a product page URL and one
protocol-relative image source. -/
theorem clean_image_urls_spec_witness :
    (List.isPrefixOf "http".data "https://styleunion.in/p".data = true) ∧
    (hasSub "https://styleunion.in/p".data "://".data = true) ∧
    (hasSub (lowerL "https://styleunion.in/p".data) "no-image".data = false) ∧
    (((cleanImageUrls "https://styleunion.in/p".data ["//c/a.jpg".data]).length ≤ 10 ∧
      (cleanImageUrls "https://styleunion.in/p".data ["//c/a.jpg".data]).Nodup ∧
      (cleanImageUrls "https://styleunion.in/p".data ["//c/a.jpg".data]).all
        (fun u => List.isPrefixOf "http".data u) = true ∧
      (cleanImageUrls "https://styleunion.in/p".data ["//c/a.jpg".data]).all
        (fun u => !(hasSub (lowerL u) "no-image".data)) = true) ∧
    ((validateImageUrls ["//c/a.jpg".data]).Nodup ∧
      (validateImageUrls ["//c/a.jpg".data]).all
        (fun u => List.isPrefixOf "http".data u) = true ∧
      (validateImageUrls ["//c/a.jpg".data]).all
        (fun u => !(hasSub (lowerL u) "no-image".data)) = true)) :=
  ⟨by decide, by decide, by decide,
    clean_image_urls_spec "https://styleunion.in/p".data ["//c/a.jpg".data]
      (by decide) (by decide) (by decide)⟩

/-- C7 counterexample: eleven distinct clean absolute image sources pass the
JSON spider image builder and the cleaning pipeline untouched, and the final
image list has 11 entries, so the at-most-10 bound fails on the JSON path. -/
theorem image_cap_cex :
    (validateImageUrls (jsonImages
      [some "//c/i01.jpg".data, some "//c/i02.jpg".data, some "//c/i03.jpg".data,
       some "//c/i04.jpg".data, some "//c/i05.jpg".data, some "//c/i06.jpg".data,
       some "//c/i07.jpg".data, some "//c/i08.jpg".data, some "//c/i09.jpg".data,
       some "//c/i10.jpg".data, some "//c/i11.jpg".data])).length = 11 ∧
    ¬ ((11 : ℕ) ≤ 10) := by
  constructor
  · decide
  · omega
